import Mathlib

/-!
Verification of the column-hashing procedure of `addhash.py`.

The development embeds the program shallowly:

* `sha256Hex` is a full executable SHA-256 (FIPS 180-4) over UTF-8 byte
  lists, used to model Python's `hashlib.sha256(...).hexdigest()`.
* `sha256_hex` mirrors the source function of the same name, including the
  discarded case transformation on all-upper-case inputs.
* `Table` models a sqlite table as an ordered column list plus rows of
  `(rowid, cell list)`; `DbOp` is the trace alphabet of statements the
  script issues (`ALTER`, `UPDATE`, `COMMIT`), and `mainRun` mirrors the
  source's `main`, producing both the final table and the statement trace.
-/

/-! ## SHA-256 over byte lists -/

def M32 : Nat := 4294967296

/-- The 64 SHA-256 round constants (fractional parts of cube roots of the
first 64 primes). -/
def shaK : List Nat :=
  [1116352408, 1899447441, 3049323471, 3921009573, 961987163, 1508970993,
   2453635748, 2870763221, 3624381080, 310598401, 607225278, 1426881987,
   1925078388, 2162078206, 2614888103, 3248222580, 3835390401, 4022224774,
   264347078, 604807628, 770255983, 1249150122, 1555081692, 1996064986,
   2554220882, 2821834349, 2952996808, 3210313671, 3336571891, 3584528711,
   113926993, 338241895, 666307205, 773529912, 1294757372, 1396182291,
   1695183700, 1986661051, 2177026350, 2456956037, 2730485921, 2820302411,
   3259730800, 3345764771, 3516065817, 3600352804, 4094571909, 275423344,
   430227734, 506948616, 659060556, 883997877, 958139571, 1322822218,
   1537002063, 1747873779, 1955562222, 2024104815, 2227730452, 2361852424,
   2428436474, 2756734187, 3204031479, 3329325298]

/-- SHA-256 initial hash value. -/
def shaH0 : List Nat :=
  [1779033703, 3144134277, 1013904242, 2773480762, 1359893119, 2600822924,
   528734635, 1541459225]

/-- Right rotation of a 32-bit word (input assumed `< 2^32`). -/
def rotr (n x : Nat) : Nat := (x >>> n) ||| ((x <<< (32 - n)) % M32)

def shaSig0 (x : Nat) : Nat := rotr 7 x ^^^ rotr 18 x ^^^ (x >>> 3)

def shaSig1 (x : Nat) : Nat := rotr 17 x ^^^ rotr 19 x ^^^ (x >>> 10)

/-- Compression state: the eight working variables. -/
structure ShaSt where
  a : Nat
  b : Nat
  c : Nat
  d : Nat
  e : Nat
  f : Nat
  g : Nat
  h : Nat

/-- One round of the SHA-256 compression function. -/
def shaStep (s : ShaSt) (kw : Nat × Nat) : ShaSt :=
  let S1 := rotr 6 s.e ^^^ rotr 11 s.e ^^^ rotr 25 s.e
  let ch := (s.e &&& s.f) ^^^ ((4294967295 ^^^ s.e) &&& s.g)
  let t1 := (s.h + S1 + ch + kw.1 + kw.2) % M32
  let S0 := rotr 2 s.a ^^^ rotr 13 s.a ^^^ rotr 22 s.a
  let mj := (s.a &&& s.b) ^^^ (s.a &&& s.c) ^^^ (s.b &&& s.c)
  let t2 := (S0 + mj) % M32
  ⟨(t1 + t2) % M32, s.a, s.b, s.c, (s.d + t1) % M32, s.e, s.f, s.g⟩

/-- Message-schedule extension; `rws` holds the schedule so far, newest
word first. -/
def shaExtend : Nat → List Nat → List Nat
  | 0, rws => rws
  | n + 1, rws =>
    let g := fun i => (rws.get? i).getD 0
    let w := (shaSig1 (g 1) + g 6 + shaSig0 (g 14) + g 15) % M32
    shaExtend n (w :: rws)

/-- Group a 64-byte block into sixteen big-endian 32-bit words. -/
def shaWords : List Nat → List Nat
  | b0 :: b1 :: b2 :: b3 :: rest =>
      (((b0 * 256 + b1) * 256 + b2) * 256 + b3) :: shaWords rest
  | _ => []

/-- Process one 512-bit block. -/
def shaCompress (hs : List Nat) (block : List Nat) : List Nat :=
  let hAt := fun i => (hs.get? i).getD 0
  let ws := (shaExtend 48 (shaWords block).reverse).reverse
  let s0 : ShaSt := ⟨hAt 0, hAt 1, hAt 2, hAt 3, hAt 4, hAt 5, hAt 6, hAt 7⟩
  let s := (shaK.zip ws).foldl shaStep s0
  [(hAt 0 + s.a) % M32, (hAt 1 + s.b) % M32, (hAt 2 + s.c) % M32,
   (hAt 3 + s.d) % M32, (hAt 4 + s.e) % M32, (hAt 5 + s.f) % M32,
   (hAt 6 + s.g) % M32, (hAt 7 + s.h) % M32]

/-- Big-endian byte rendering of `n` on `k` bytes. -/
def beBytes : Nat → Nat → List Nat
  | 0, _ => []
  | k + 1, n => ((n >>> (8 * k)) % 256) :: beBytes k n

/-- SHA-256 padding: `0x80`, zeros to 56 mod 64, 64-bit big-endian bit
length. -/
def shaPad (msg : List Nat) : List Nat :=
  let L := msg.length
  msg ++ 128 :: List.replicate ((119 - (L % 64)) % 64) 0 ++ beBytes 8 (8 * L)

/-- Split into 64-byte chunks (fuel-driven structural recursion). -/
def shaChunks : Nat → List Nat → List (List Nat)
  | 0, _ => []
  | _ + 1, [] => []
  | n + 1, bs => bs.take 64 :: shaChunks n (bs.drop 64)

/-- SHA-256 of a byte list, as eight 32-bit words. -/
def sha256Words (msg : List Nat) : List Nat :=
  let pb := shaPad msg
  (shaChunks pb.length pb).foldl shaCompress shaH0

def hexChar (n : Nat) : Char := Char.ofNat (if n < 10 then 48 + n else 87 + n)

/-- Lowercase hexadecimal rendering of a 32-bit word on 8 digits. -/
def wordHex (x : Nat) : List Char :=
  [hexChar ((x >>> 28) % 16), hexChar ((x >>> 24) % 16),
   hexChar ((x >>> 20) % 16), hexChar ((x >>> 16) % 16),
   hexChar ((x >>> 12) % 16), hexChar ((x >>> 8) % 16),
   hexChar ((x >>> 4) % 16), hexChar (x % 16)]

/-- UTF-8 encoding of a character, as a byte list. -/
def utf8Bytes (c : Char) : List Nat :=
  let n := c.toNat
  if n < 128 then [n]
  else if n < 2048 then [192 ||| (n >>> 6), 128 ||| (n &&& 63)]
  else if n < 65536 then
    [224 ||| (n >>> 12), 128 ||| ((n >>> 6) &&& 63), 128 ||| (n &&& 63)]
  else
    [240 ||| (n >>> 18), 128 ||| ((n >>> 12) &&& 63),
     128 ||| ((n >>> 6) &&& 63), 128 ||| (n &&& 63)]

def strBytes (s : String) : List Nat := s.data.flatMap utf8Bytes

/-- `hashlib.sha256(s.encode("utf-8")).hexdigest()`: lowercase hex SHA-256
of the UTF-8 encoding of `s`. -/
def sha256Hex (s : String) : String :=
  String.mk (((sha256Words (strBytes s)).map wordHex).flatten)

/-! ## Python string model (ASCII fragment used by the script) -/

/-- Python `str.isupper`: at least one cased character and every cased
character upper-case (ASCII model). -/
def pyIsUpper (s : String) : Bool :=
  s.data.any (fun c => c.isAlpha) && s.data.all (fun c => !c.isAlpha || c.isUpper)

/-- Python `str.lower` (ASCII model). -/
def pyLower (s : String) : String := String.mk (s.data.map Char.toLower)

/-- Python `str.capitalize` (ASCII model). -/
def pyCapitalize (s : String) : String :=
  match s.data with
  | [] => s
  | c :: cs => String.mk (Char.toUpper c :: cs.map Char.toLower)

/-- `sha256_hex` from `addhash.py`: on all-upper-case input the source
computes `s.lower().capitalize()` but discards the result, then hashes the
raw string. -/
def sha256_hex (s : String) : String :=
  if pyIsUpper s then
    let _ := pyCapitalize (pyLower s)
    sha256Hex s
  else
    sha256Hex s

/-! ## Database model

The script issues only four statement forms against sqlite:
`PRAGMA table_info` (schema read), `ALTER TABLE … ADD COLUMN` (appends a
column, existing rows read back `NULL` there), `SELECT rowid, "c"` (full
scan), and `UPDATE … SET "h" = ? WHERE rowid = ?`.  A table is an ordered
column-name list plus rows of `(rowid, cells)`, cells indexed in column
order; a missing/`NULL` cell is `none`. -/

/-- A non-null sqlite value as the script can observe it: the source
columns it reads hold `INTEGER` or `TEXT` data, and the digests it writes
are Python `str`s (stored as `TEXT`). -/
inductive SqlValue where
  | int (i : Int)
  | text (s : String)
deriving DecidableEq

/-- Python `str(value)` on a non-null sqlite value. -/
def pyStr : SqlValue → String
  | .int i => toString i
  | .text s => s

structure DbTable where
  cols : List String
  rows : List (Nat × List (Option SqlValue))
deriving DecidableEq

/-- Index of a column name in a schema (first occurrence). -/
def colIndex : List String → String → Option Nat
  | [], _ => none
  | c :: cs, d => if c = d then some 0 else (colIndex cs d).map (· + 1)

/-- `ALTER TABLE … ADD COLUMN c`: appends the column; every existing row
reads back `NULL` in it. -/
def DbTable.addColumn (t : DbTable) (c : String) : DbTable :=
  ⟨t.cols ++ [c], t.rows.map fun rv => (rv.1, rv.2 ++ [none])⟩

/-- `SELECT rowid, "c" FROM t`. -/
def DbTable.select (t : DbTable) (c : String) : List (Nat × Option SqlValue) :=
  match colIndex t.cols c with
  | none => []
  | some i => t.rows.map fun rv => (rv.1, (rv.2.get? i).getD none)

/-- `UPDATE t SET "c" = v WHERE rowid = r`. -/
def DbTable.updateCell (t : DbTable) (r : Nat) (c : String) (v : Option SqlValue) :
    DbTable :=
  match colIndex t.cols c with
  | none => t
  | some i =>
    ⟨t.cols, t.rows.map fun rv => if rv.1 = r then (rv.1, rv.2.set i v) else rv⟩

/-- Well-formedness guaranteed by sqlite: distinct column names, one cell
per column in every row, distinct rowids. -/
def DbTable.WF (t : DbTable) : Prop :=
  t.cols.Nodup ∧ (∀ rv ∈ t.rows, rv.2.length = t.cols.length) ∧
    (t.rows.map Prod.fst).Nodup

instance (t : DbTable) : Decidable t.WF := by
  unfold DbTable.WF; infer_instance

/-- The statements the script issues after schema introspection. -/
inductive DbOp where
  | alter (c : String)
  | update (r : Nat) (c : String) (v : Option SqlValue)
  | commit
deriving DecidableEq

def applyOp (t : DbTable) : DbOp → DbTable
  | .alter c => t.addColumn c
  | .update r c v => t.updateCell r c v
  | .commit => t

/-- Session semantics of a statement list: every statement is applied to
the connection's view in order (`commit` does not change the view). -/
def applyOps (t : DbTable) (ops : List DbOp) : DbTable := ops.foldl applyOp t

def isCommit : DbOp → Bool
  | .commit => true
  | _ => false

/-- Durable semantics: `runCommitted comm sess ops` threads the session
view `sess` through `ops` and returns the last committed state (initially
`comm`).  Statements after the last `commit` are discarded, which models a
failure/abort at the end of `ops`. -/
def runCommitted : DbTable → DbTable → List DbOp → DbTable
  | comm, _, [] => comm
  | comm, sess, op :: ops =>
    let sess' := applyOp sess op
    runCommitted (if isCommit op then sess' else comm) sess' ops

def countCommits (ops : List DbOp) : Nat := (ops.filter isCommit).length

/-! ## The procedure (`main` of `addhash.py`) -/

/-- Line 46: `raw = "" if value is None else str(value)`. -/
def normalizeVal : Option SqlValue → String
  | none => ""
  | some v => pyStr v

/-- Lines 27: `to_hash = [c for c in all_cols if c not in EXCLUDE_COLS]`. -/
def toHash (excludeCols : List String) (t : DbTable) : List String :=
  t.cols.filter fun c => decide (c ∉ excludeCols)

/-- Lines 32–38: the `ALTER` statements issued by the schema loop.  The
membership test uses the stale `all_cols` read at line 24, exactly as the
source does. -/
def schemaAlterOps (allCols : List String) (cs : List String) : List DbOp :=
  cs.filterMap fun c =>
    if (c ++ "_sha256") ∈ allCols then none else some (DbOp.alter (c ++ "_sha256"))

/-- Lines 32–39: schema loop plus the `conn.commit()` at line 39. -/
def schemaOps (excludeCols : List String) (t : DbTable) : List DbOp :=
  schemaAlterOps t.cols (toHash excludeCols t) ++ [DbOp.commit]

/-- The session view after the schema phase. -/
def schemaTable (excludeCols : List String) (t : DbTable) : DbTable :=
  applyOps t (schemaOps excludeCols t)

/-- Lines 43–52 for one column: fetch the full scan snapshot, emit one
`UPDATE` per fetched row writing the digest of the normalized value into
`col_sha256`, then `conn.commit()`. -/
def hashColOps (t : DbTable) (col : String) : List DbOp :=
  ((t.select col).map fun rv =>
    DbOp.update rv.1 (col ++ "_sha256")
      (some (.text (sha256_hex (normalizeVal rv.2))))) ++ [DbOp.commit]

/-- Lines 41–52: the row-hashing loop, threading the session view. -/
def colsRun : DbTable → List String → DbTable
  | t, [] => t
  | t, c :: cs => colsRun (applyOps t (hashColOps t c)) cs

/-- Trace of the row-hashing loop. -/
def colsTrace : DbTable → List String → List DbOp
  | _, [] => []
  | t, c :: cs => hashColOps t c ++ colsTrace (applyOps t (hashColOps t c)) cs

/-- Trace of the row-hashing phase of a full run. -/
def hashOps (excludeCols : List String) (t : DbTable) : List DbOp :=
  colsTrace (schemaTable excludeCols t) (toHash excludeCols t)

structure MainResult where
  configError : Bool
  table : DbTable
  trace : List DbOp
deriving DecidableEq

/-- `main(db_path, TABLE)` of `addhash.py` on the table `t`: introspect the
schema, bail out (lines 28–30) when no column is eligible, otherwise run
the schema loop, commit, and run the hashing loop. -/
def mainRun (excludeCols : List String) (t : DbTable) : MainResult :=
  if toHash excludeCols t = [] then ⟨true, t, []⟩
  else
    ⟨false, colsRun (schemaTable excludeCols t) (toHash excludeCols t),
      schemaOps excludeCols t ++ hashOps excludeCols t⟩

/-- The `__main__` loop: `for TABLE in TABLES: main(DB_PATH, TABLE)` over a
database of named tables. -/
def runTables (excludeCols : List String) (db : List (String × DbTable))
    (names : List String) : List (String × DbTable) :=
  names.foldl
    (fun d n => d.map fun p =>
      if p.1 = n then (p.1, (mainRun excludeCols p.2).table) else p) db

/-- The scenario table of the spec: columns `id, name`, rows `(1, "alice")`
and `(2, "BOB")`. -/
def scenarioTable : DbTable :=
  ⟨["id", "name"],
   [(1, [some (.int 1), some (.text "alice")]),
    (2, [some (.int 2), some (.text "BOB")])]⟩

/-- Decidable check that a column name ends in `_sha256`. -/
def hasHashSuffix (c : String) : Bool :=
  decide (7 ≤ c.data.length) &&
    decide (c.data.drop (c.data.length - 7) = "_sha256".data)

def RowsWF (t : DbTable) : Prop := ∀ rv ∈ t.rows, rv.2.length = t.cols.length

/-- The script's per-row digest payload for one column scan entry. -/
def hashPayload (v : Option SqlValue) : Option SqlValue :=
  some (.text (sha256_hex (normalizeVal v)))

/-- Effect on one row of folding a batch of keyed updates at column index
`j`: the updates whose key matches the row's rowid land, in order. -/
def updFold (j : Nat) (f : Nat × Option SqlValue → Option SqlValue)
    (L : List (Nat × Option SqlValue)) (rv : Nat × List (Option SqlValue)) :
    Nat × List (Option SqlValue) :=
  L.foldl (fun rv' l => if rv'.1 = l.1 then (rv'.1, rv'.2.set j (f l)) else rv') rv

def RowIdsNodup (t : DbTable) : Prop := (t.rows.map Prod.fst).Nodup

/-- A one-row table whose `name` value is `NULL`. -/
def nullRowTable : DbTable := ⟨["id", "name"], [(1, [some (.int 1), none])]⟩

/-- A two-column table with no rows. -/
def emptyRowsTable : DbTable := ⟨["id", "name"], []⟩

/-! ## Helper lemmas: hash-column names -/

theorem hasHashSuffix_append (c : String) :
    hasHashSuffix (c ++ "_sha256") = true := by
  unfold hasHashSuffix
  rw [String.data_append]
  have hlen : (c.data ++ "_sha256".data).length = c.data.length + 7 := by
    simp [List.length_append]
  rw [hlen]
  simp only [Nat.add_sub_cancel, Bool.and_eq_true, decide_eq_true_eq]
  exact ⟨by omega, by simpa using List.drop_left c.data "_sha256".data⟩

theorem ne_hash_name_of_no_suffix {d : String} (h : hasHashSuffix d = false)
    (c : String) : d ≠ c ++ "_sha256" := by
  intro he
  rw [he, hasHashSuffix_append] at h
  exact absurd h (by simp)

theorem hash_name_inj {c d : String}
    (h : c ++ "_sha256" = d ++ "_sha256") : c = d := by
  have hd := congrArg String.data h
  rw [String.data_append, String.data_append] at hd
  exact String.ext (List.append_cancel_right hd)

/-! ## Helper lemmas: column lookup -/

theorem colIndex_getElem {l : List String} {c : String} {i : Nat}
    (h : colIndex l c = some i) : l[i]? = some c := by
  induction l generalizing i with
  | nil => simp [colIndex] at h
  | cons a as ih =>
    by_cases hac : a = c
    · simp [colIndex, hac] at h
      simp [← h, hac]
    · simp [colIndex, hac] at h
      obtain ⟨j, hj, hji⟩ := h
      subst hji
      simp only [List.getElem?_cons_succ]
      exact ih hj

theorem colIndex_lt_length {l : List String} {c : String} {i : Nat}
    (h : colIndex l c = some i) : i < l.length := by
  have := colIndex_getElem h
  by_contra hge
  rw [List.getElem?_eq_none (by omega)] at this
  exact Option.noConfusion this

theorem colIndex_ne {l : List String} {c d : String} {i j : Nat}
    (hc : colIndex l c = some i) (hd : colIndex l d = some j)
    (hne : c ≠ d) : i ≠ j := by
  intro he
  subst he
  have h1 := colIndex_getElem hc
  have h2 := colIndex_getElem hd
  rw [h1] at h2
  exact hne (Option.some.inj h2)

theorem colIndex_append_left {l : List String} {c : String} {i : Nat}
    (h : colIndex l c = some i) (l' : List String) :
    colIndex (l ++ l') c = some i := by
  induction l generalizing i with
  | nil => simp [colIndex] at h
  | cons a as ih =>
    by_cases hac : a = c
    · simp [colIndex, hac] at h ⊢
      exact h
    · simp [colIndex, hac] at h ⊢
      obtain ⟨j, hj, hji⟩ := h
      exact ⟨j, ih hj, hji⟩

theorem colIndex_isSome_of_mem {l : List String} {c : String} (h : c ∈ l) :
    ∃ i, colIndex l c = some i := by
  induction l with
  | nil => simp at h
  | cons a as ih =>
    by_cases hac : a = c
    · exact ⟨0, by simp [colIndex, hac]⟩
    · have : c ∈ as := by
        rcases List.mem_cons.mp h with h' | h'
        · exact absurd h'.symm hac
        · exact h'
      obtain ⟨i, hi⟩ := ih this
      exact ⟨i + 1, by simp [colIndex, hac, hi]⟩

theorem colIndex_eq_none_of_not_mem {l : List String} {c : String}
    (h : c ∉ l) : colIndex l c = none := by
  induction l with
  | nil => rfl
  | cons a as ih =>
    have hac : a ≠ c := fun he => h (he ▸ List.mem_cons_self a as)
    have : c ∉ as := fun hm => h (List.mem_cons_of_mem a hm)
    simp [colIndex, hac, ih this]

/-! ## Helper lemmas: table operations -/

theorem updateCell_cols (t : DbTable) (r : Nat) (c : String)
    (v : Option SqlValue) : (t.updateCell r c v).cols = t.cols := by
  unfold DbTable.updateCell
  cases colIndex t.cols c <;> rfl

/-- Updating one column leaves every other column's full scan unchanged. -/
theorem updateCell_select_ne (t : DbTable) (r : Nat) {c d : String}
    (v : Option SqlValue) (hne : d ≠ c) :
    (t.updateCell r c v).select d = t.select d := by
  unfold DbTable.updateCell
  cases hc : colIndex t.cols c with
  | none => rfl
  | some j =>
    unfold DbTable.select
    cases hd : colIndex t.cols d with
    | none => simp [hd]
    | some i =>
      simp only [hd]
      rw [List.map_map]
      apply List.map_congr_left
      intro rv _
      simp only [Function.comp]
      by_cases hr : rv.1 = r
      · have hij : i ≠ j := colIndex_ne hd hc (fun he => hne he)
        simp [hr, List.get?_eq_getElem?, List.getElem?_set_ne (Ne.symm hij)]
      · simp [hr]

/-- A lookup below the original width is unchanged by appending a `none`
cell (out-of-range lookups flatten to `none` on both sides). -/
theorem getD_append_none (vs : List (Option SqlValue)) (i : Nat) :
    (((vs ++ [none]).get? i).getD none) = ((vs.get? i).getD none) := by
  by_cases h : i < vs.length
  · rw [List.get?_eq_getElem?, List.get?_eq_getElem?, List.getElem?_append]
    simp [h]
  · rw [List.get?_eq_getElem?, List.get?_eq_getElem?,
      List.getElem?_eq_none (l := vs) (by omega)]
    by_cases h1 : i < vs.length + 1
    · have : i = vs.length := by omega
      subst this
      rw [List.getElem?_append_right (by omega)]
      simp
    · rw [List.getElem?_eq_none (by simp; omega)]

/-- Adding a column does not change the scan of a column already present. -/
theorem addColumn_select {t : DbTable} {c : String} (hc : c ∈ t.cols)
    (d : String) : (t.addColumn d).select c = t.select c := by
  obtain ⟨i, hi⟩ := colIndex_isSome_of_mem hc
  unfold DbTable.addColumn DbTable.select
  simp only [colIndex_append_left hi [d], hi, List.map_map]
  apply List.map_congr_left
  intro rv _
  simp only [Function.comp]
  rw [getD_append_none]

theorem addColumn_cols (t : DbTable) (c : String) :
    (t.addColumn c).cols = t.cols ++ [c] := rfl

theorem addColumn_rowIds (t : DbTable) (c : String) :
    (t.addColumn c).rows.map Prod.fst = t.rows.map Prod.fst := by
  unfold DbTable.addColumn
  rw [List.map_map]
  rfl

theorem addColumn_rowsWF {t : DbTable} (h : RowsWF t) (c : String) :
    RowsWF (t.addColumn c) := by
  intro rv hrv
  unfold DbTable.addColumn at hrv
  simp only [List.mem_map] at hrv
  obtain ⟨rw0, hrw0, heq⟩ := hrv
  subst heq
  simp [addColumn_cols, h rw0 hrw0]

/-! ## Helper lemmas: the schema phase -/

theorem applyOps_append (t : DbTable) (l l' : List DbOp) :
    applyOps t (l ++ l') = applyOps (applyOps t l) l' :=
  List.foldl_append applyOp t l l'

theorem applyOps_cons (t : DbTable) (op : DbOp) (ops : List DbOp) :
    applyOps t (op :: ops) = applyOps (applyOp t op) ops := rfl

theorem applyOp_alter (t : DbTable) (c : String) :
    applyOp t (DbOp.alter c) = t.addColumn c := rfl

theorem schemaTable_eq (ex : List String) (t : DbTable) :
    schemaTable ex t = applyOps t (schemaAlterOps t.cols (toHash ex t)) := by
  unfold schemaTable schemaOps
  rw [applyOps_append]
  rfl

theorem schemaAlterOps_cons (A : List String) (c : String) (cs : List String) :
    schemaAlterOps A (c :: cs) =
      (if (c ++ "_sha256") ∈ A then schemaAlterOps A cs
       else DbOp.alter (c ++ "_sha256") :: schemaAlterOps A cs) := by
  unfold schemaAlterOps
  by_cases h : (c ++ "_sha256") ∈ A <;> simp [h]

theorem applyAlters_cols_sub (A : List String) :
    ∀ (cs : List String) (t : DbTable),
      t.cols ⊆ (applyOps t (schemaAlterOps A cs)).cols := by
  intro cs
  induction cs with
  | nil => intro t; exact fun _ h => h
  | cons c cs ih =>
    intro t
    rw [schemaAlterOps_cons]
    by_cases h : (c ++ "_sha256") ∈ A
    · simp only [if_pos h]
      exact ih t
    · simp only [if_neg h]
      intro d hd
      exact ih (t.addColumn (c ++ "_sha256"))
        (by rw [addColumn_cols]; exact List.mem_append_left _ hd)

theorem applyAlters_select (A : List String) :
    ∀ (cs : List String) (t : DbTable) (c : String), c ∈ t.cols →
      (applyOps t (schemaAlterOps A cs)).select c = t.select c := by
  intro cs
  induction cs with
  | nil => intro t c _; rfl
  | cons c0 cs ih =>
    intro t c hc
    rw [schemaAlterOps_cons]
    by_cases h : (c0 ++ "_sha256") ∈ A
    · simp only [if_pos h]
      exact ih t c hc
    · simp only [if_neg h]
      have hc' : c ∈ (t.addColumn (c0 ++ "_sha256")).cols := by
        rw [addColumn_cols]; exact List.mem_append_left _ hc
      calc (applyOps (t.addColumn (c0 ++ "_sha256")) (schemaAlterOps A cs)).select c
          = (t.addColumn (c0 ++ "_sha256")).select c := ih _ c hc'
        _ = t.select c := addColumn_select hc _

theorem applyAlters_mem (A : List String) :
    ∀ (cs : List String) (t : DbTable), A ⊆ t.cols →
      ∀ c ∈ cs, (c ++ "_sha256") ∈ (applyOps t (schemaAlterOps A cs)).cols := by
  intro cs
  induction cs with
  | nil => intro t _ c hc; simp at hc
  | cons c0 cs ih =>
    intro t hA c hc
    rw [schemaAlterOps_cons]
    rcases List.mem_cons.mp hc with hh | ht
    · subst hh
      by_cases h : (c ++ "_sha256") ∈ A
      · simp only [if_pos h]
        exact applyAlters_cols_sub A cs t (hA h)
      · simp only [if_neg h, applyOps_cons, applyOp_alter]
        exact applyAlters_cols_sub A cs _
          (by rw [addColumn_cols]; exact List.mem_append_right _ (by simp))
    · by_cases h : (c0 ++ "_sha256") ∈ A
      · simp only [if_pos h]
        exact ih t hA c ht
      · simp only [if_neg h, applyOps_cons, applyOp_alter]
        exact ih _ (fun d hd => by
          rw [addColumn_cols]; exact List.mem_append_left _ (hA hd)) c ht

theorem applyAlters_rowIds (A : List String) :
    ∀ (cs : List String) (t : DbTable),
      (applyOps t (schemaAlterOps A cs)).rows.map Prod.fst =
        t.rows.map Prod.fst := by
  intro cs
  induction cs with
  | nil => intro t; rfl
  | cons c0 cs ih =>
    intro t
    rw [schemaAlterOps_cons]
    by_cases h : (c0 ++ "_sha256") ∈ A
    · simp only [if_pos h]; exact ih t
    · simp only [if_neg h, applyOps_cons, applyOp_alter]
      rw [ih, addColumn_rowIds]

theorem applyAlters_rowsWF (A : List String) :
    ∀ (cs : List String) (t : DbTable), RowsWF t →
      RowsWF (applyOps t (schemaAlterOps A cs)) := by
  intro cs
  induction cs with
  | nil => intro t h; exact h
  | cons c0 cs ih =>
    intro t h
    rw [schemaAlterOps_cons]
    by_cases hm : (c0 ++ "_sha256") ∈ A
    · simp only [if_pos hm]; exact ih t h
    · simp only [if_neg hm, applyOps_cons, applyOp_alter]
      exact ih _ (addColumn_rowsWF h _)

theorem applyAlters_rows_nil (A : List String) :
    ∀ (cs : List String) (t : DbTable), t.rows = [] →
      (applyOps t (schemaAlterOps A cs)).rows = [] := by
  intro cs
  induction cs with
  | nil => intro t h; exact h
  | cons c0 cs ih =>
    intro t h
    rw [schemaAlterOps_cons]
    by_cases hm : (c0 ++ "_sha256") ∈ A
    · simp only [if_pos hm]; exact ih t h
    · simp only [if_neg hm, applyOps_cons, applyOp_alter]
      exact ih _ (by unfold DbTable.addColumn; rw [h]; rfl)

theorem schemaAlterOps_shape (A cs : List String) :
    ∀ op ∈ schemaAlterOps A cs, ∃ c, op = DbOp.alter c := by
  intro op hop
  obtain ⟨c, _, hc⟩ := List.mem_filterMap.mp hop
  by_cases h : (c ++ "_sha256") ∈ A
  · simp [h] at hc
  · simp [h] at hc
    exact ⟨c ++ "_sha256", hc.symm⟩

/-! ## Helper lemmas: the row-hashing phase -/

theorem hashColOps_eq (t : DbTable) (col : String) :
    hashColOps t col =
      ((t.select col).map fun rv =>
        DbOp.update rv.1 (col ++ "_sha256") (hashPayload rv.2)) ++ [DbOp.commit] :=
  rfl

theorem updFold_nil (j : Nat) (f : Nat × Option SqlValue → Option SqlValue)
    (rv : Nat × List (Option SqlValue)) : updFold j f [] rv = rv := rfl

theorem updFold_fst (j : Nat) (f : Nat × Option SqlValue → Option SqlValue) :
    ∀ (L : List (Nat × Option SqlValue)) (rv : Nat × List (Option SqlValue)),
      (updFold j f L rv).1 = rv.1 := by
  intro L
  induction L with
  | nil => intro rv; rfl
  | cons l L ih =>
    intro rv
    unfold updFold
    rw [List.foldl_cons]
    by_cases h : rv.1 = l.1
    · simp only [h, if_pos rfl]
      exact ih (l.1, rv.2.set j (f l)) ▸ (ih _)
    · simp only [if_neg h]
      exact ih rv

theorem updFold_skip (j : Nat) (f : Nat × Option SqlValue → Option SqlValue) :
    ∀ (L : List (Nat × Option SqlValue)) (rv : Nat × List (Option SqlValue)),
      (∀ l ∈ L, l.1 ≠ rv.1) → updFold j f L rv = rv := by
  intro L
  induction L with
  | nil => intro rv _; rfl
  | cons l L ih =>
    intro rv hL
    unfold updFold
    rw [List.foldl_cons]
    have h1 : rv.1 ≠ l.1 := fun he => hL l (by simp) he.symm
    simp only [if_neg h1]
    exact ih rv fun x hx => hL x (List.mem_cons_of_mem l hx)

theorem updFold_append (j : Nat) (f : Nat × Option SqlValue → Option SqlValue)
    (L1 L2 : List (Nat × Option SqlValue)) (rv : Nat × List (Option SqlValue)) :
    updFold j f (L1 ++ L2) rv = updFold j f L2 (updFold j f L1 rv) := by
  unfold updFold
  exact List.foldl_append _ rv L1 L2

theorem updFold_hit (j : Nat) (f : Nat × Option SqlValue → Option SqlValue)
    (L1 L2 : List (Nat × Option SqlValue)) (l : Nat × Option SqlValue)
    (rv : Nat × List (Option SqlValue)) (h1 : ∀ x ∈ L1, x.1 ≠ rv.1)
    (h2 : ∀ x ∈ L2, x.1 ≠ rv.1) (hl : rv.1 = l.1) :
    updFold j f (L1 ++ l :: L2) rv = (rv.1, rv.2.set j (f l)) := by
  rw [updFold_append, updFold_skip j f L1 rv h1]
  unfold updFold
  rw [List.foldl_cons]
  simp only [if_pos hl]
  exact updFold_skip j f L2 _ h2

/-- Applying a batch of keyed updates at a fixed column index is a single
map over the rows. -/
theorem applyUpdates_eq (h : String)
    (f : Nat × Option SqlValue → Option SqlValue) :
    ∀ (L : List (Nat × Option SqlValue)) (w : DbTable) (j : Nat),
      colIndex w.cols h = some j →
      applyOps w (L.map fun l => DbOp.update l.1 h (f l)) =
        ⟨w.cols, w.rows.map (updFold j f L)⟩ := by
  intro L
  induction L with
  | nil =>
    intro w j _
    simp only [List.map_nil]
    show w = _
    conv_lhs => rw [show w = ⟨w.cols, w.rows⟩ from rfl]
    rw [show w.rows.map (updFold j f []) = w.rows.map (fun rv => rv) from rfl,
      List.map_id']
  | cons l L ih =>
    intro w j hj
    simp only [List.map_cons, applyOps_cons]
    have hstep : applyOp w (DbOp.update l.1 h (f l)) =
        (⟨w.cols, w.rows.map fun rv =>
          if rv.1 = l.1 then (rv.1, rv.2.set j (f l)) else rv⟩ : DbTable) := by
      show w.updateCell l.1 h (f l) = _
      unfold DbTable.updateCell
      rw [hj]
    rw [hstep, ih _ j (by exact hj), List.map_map]
    rfl

/-- Processing one column rewrites, in every row, exactly the hash-column
cell `j`, with the digest of that row's own scanned value at cell `i`. -/
theorem hashCol_rows (u : DbTable) (col : String) {i j : Nat}
    (hi : colIndex u.cols col = some i)
    (hj : colIndex u.cols (col ++ "_sha256") = some j)
    (hnd : RowIdsNodup u) :
    (applyOps u (hashColOps u col)).rows =
      u.rows.map fun rv =>
        (rv.1, rv.2.set j (hashPayload ((rv.2.get? i).getD none))) := by
  rw [hashColOps_eq, applyOps_append]
  have hsel : u.select col =
      u.rows.map fun rv => (rv.1, (rv.2.get? i).getD none) := by
    unfold DbTable.select
    rw [hi]
  have hops : ((u.select col).map fun rv =>
      DbOp.update rv.1 (col ++ "_sha256") (hashPayload rv.2)) =
      u.rows.map fun rv =>
        DbOp.update rv.1 (col ++ "_sha256")
          (hashPayload ((rv.2.get? i).getD none)) := by
    rw [hsel, List.map_map]
    rfl
  have hf : ∀ w : DbTable, colIndex w.cols (col ++ "_sha256") = some j →
      applyOps w ((u.select col).map fun rv =>
        DbOp.update rv.1 (col ++ "_sha256") (hashPayload rv.2)) =
        ⟨w.cols, w.rows.map
          (updFold j (fun l => hashPayload l.2) (u.select col))⟩ := by
    intro w hw
    have := applyUpdates_eq (col ++ "_sha256") (fun l => hashPayload l.2)
      (u.select col) w j hw
    calc applyOps w ((u.select col).map fun rv =>
          DbOp.update rv.1 (col ++ "_sha256") (hashPayload rv.2))
        = applyOps w ((u.select col).map fun l =>
            DbOp.update l.1 (col ++ "_sha256") ((fun l => hashPayload l.2) l)) := rfl
      _ = _ := this
  rw [hf u hj]
  show (⟨u.cols, u.rows.map (updFold j (fun l => hashPayload l.2) (u.select col))⟩ :
    DbTable).rows = _
  simp only
  apply List.map_congr_left
  intro rv hrv
  obtain ⟨R1, R2, hdec⟩ := List.append_of_mem hrv
  have hnodup : (u.rows.map Prod.fst).Nodup := hnd
  rw [hdec] at hnodup
  rw [List.map_append, List.map_cons] at hnodup
  rw [List.nodup_middle] at hnodup
  have hnotmem : rv.1 ∉ R1.map Prod.fst ++ R2.map Prod.fst :=
    (List.nodup_cons.mp hnodup).1
  have hn1 : ∀ x ∈ R1, x.1 ≠ rv.1 := by
    intro x hx he
    exact absurd (List.mem_append_left _ (he ▸ List.mem_map_of_mem Prod.fst hx))
      hnotmem
  have hn2 : ∀ x ∈ R2, x.1 ≠ rv.1 := by
    intro x hx he
    exact absurd (List.mem_append_right _ (he ▸ List.mem_map_of_mem Prod.fst hx))
      hnotmem
  have hLdec : u.select col =
      (R1.map fun rv => (rv.1, (rv.2.get? i).getD none)) ++
        (rv.1, (rv.2.get? i).getD none) ::
        (R2.map fun rv => (rv.1, (rv.2.get? i).getD none)) := by
    rw [hsel, hdec, List.map_append, List.map_cons]
  rw [hLdec, updFold_hit _ _ _ _ _ rv
    (fun x hx => by
      obtain ⟨y, hy, hxy⟩ := List.mem_map.mp hx
      exact hxy ▸ hn1 y hy)
    (fun x hx => by
      obtain ⟨y, hy, hxy⟩ := List.mem_map.mp hx
      exact hxy ▸ hn2 y hy)
    rfl]

/-- Processing one column leaves the table's schema unchanged. -/
theorem hashCol_cols (u v : DbTable) (col : String) :
    (applyOps v (hashColOps u col)).cols = v.cols := by
  rw [hashColOps_eq, applyOps_append]
  have h1 : ∀ (L : List (Nat × Option SqlValue)) (w : DbTable),
      (applyOps w (L.map fun rv =>
        DbOp.update rv.1 (col ++ "_sha256") (hashPayload rv.2))).cols = w.cols := by
    intro L
    induction L with
    | nil => intro w; rfl
    | cons l L ih =>
      intro w
      rw [List.map_cons, applyOps_cons]
      rw [ih]
      show (w.updateCell _ _ _).cols = _
      exact updateCell_cols w _ _ _
  exact h1 (u.select col) v

/-- Processing one column does not change the scan of any column other
than its hash column. -/
theorem hashCol_select_ne (u v : DbTable) (col : String) {d : String}
    (hne : d ≠ col ++ "_sha256") :
    (applyOps v (hashColOps u col)).select d = v.select d := by
  rw [hashColOps_eq, applyOps_append]
  have h1 : ∀ (L : List (Nat × Option SqlValue)) (w : DbTable),
      (applyOps w (L.map fun rv =>
        DbOp.update rv.1 (col ++ "_sha256") (hashPayload rv.2))).select d =
        w.select d := by
    intro L
    induction L with
    | nil => intro w; rfl
    | cons l L ih =>
      intro w
      rw [List.map_cons, applyOps_cons, ih]
      show (w.updateCell _ _ _).select d = _
      exact updateCell_select_ne w _ _ hne
  exact h1 (u.select col) v

/-- After processing a column, its hash column holds exactly the digests of
the scanned values, row by row. -/
theorem hashCol_select_self (u : DbTable) (col : String) {i j : Nat}
    (hi : colIndex u.cols col = some i)
    (hj : colIndex u.cols (col ++ "_sha256") = some j)
    (hwf : RowsWF u) (hnd : RowIdsNodup u) :
    (applyOps u (hashColOps u col)).select (col ++ "_sha256") =
      (u.select col).map fun rv => (rv.1, hashPayload rv.2) := by
  have hcols := hashCol_cols u u col
  have hsel1 : (applyOps u (hashColOps u col)).select (col ++ "_sha256") =
      (applyOps u (hashColOps u col)).rows.map fun rv =>
        (rv.1, (rv.2.get? j).getD none) := by
    unfold DbTable.select
    rw [hcols, hj]
  have hsel2 : u.select col =
      u.rows.map fun rv => (rv.1, (rv.2.get? i).getD none) := by
    unfold DbTable.select
    rw [hi]
  rw [hsel1, hashCol_rows u col hi hj hnd, List.map_map, hsel2, List.map_map]
  apply List.map_congr_left
  intro rv hrv
  have hlt : j < rv.2.length := by
    rw [hwf rv hrv]
    exact colIndex_lt_length hj
  simp only [Function.comp]
  rw [List.get?_eq_getElem?, List.getElem?_set_self hlt]
  rfl

theorem hashCol_rowsWF (u : DbTable) (col : String) {i j : Nat}
    (hi : colIndex u.cols col = some i)
    (hj : colIndex u.cols (col ++ "_sha256") = some j)
    (hwf : RowsWF u) (hnd : RowIdsNodup u) :
    RowsWF (applyOps u (hashColOps u col)) := by
  intro rv hrv
  rw [hashCol_rows u col hi hj hnd] at hrv
  obtain ⟨rw0, hrw0, heq⟩ := List.mem_map.mp hrv
  subst heq
  rw [hashCol_cols u u col]
  simp only [List.length_set]
  exact hwf rw0 hrw0

theorem hashCol_rowIds (u : DbTable) (col : String) {i j : Nat}
    (hi : colIndex u.cols col = some i)
    (hj : colIndex u.cols (col ++ "_sha256") = some j)
    (hnd : RowIdsNodup u) :
    (applyOps u (hashColOps u col)).rows.map Prod.fst = u.rows.map Prod.fst := by
  rw [hashCol_rows u col hi hj hnd, List.map_map]
  rfl

/-- The whole hashing loop never changes the schema. -/
theorem colsRun_cols : ∀ (cs : List String) (u : DbTable),
    (colsRun u cs).cols = u.cols := by
  intro cs
  induction cs with
  | nil => intro u; rfl
  | cons c cs ih =>
    intro u
    show (colsRun (applyOps u (hashColOps u c)) cs).cols = u.cols
    rw [ih, hashCol_cols]

/-- The whole hashing loop leaves any column that is not the hash column of
a processed column unchanged. -/
theorem colsRun_select_ne : ∀ (cs : List String) (u : DbTable) (d : String),
    (∀ c ∈ cs, d ≠ c ++ "_sha256") →
    (colsRun u cs).select d = u.select d := by
  intro cs
  induction cs with
  | nil => intro u d _; rfl
  | cons c cs ih =>
    intro u d hd
    show (colsRun (applyOps u (hashColOps u c)) cs).select d = u.select d
    rw [ih _ d fun c' hc' => hd c' (List.mem_cons_of_mem c hc'),
      hashCol_select_ne u u c (hd c (by simp))]

/-- Main loop invariant: after the hashing loop, every processed column's
hash column holds the digests of the values that column had when the loop
started. -/
theorem colsRun_select_hash : ∀ (cs : List String) (u : DbTable),
    RowsWF u → RowIdsNodup u → cs.Nodup →
    (∀ c ∈ cs, c ∈ u.cols) → (∀ c ∈ cs, (c ++ "_sha256") ∈ u.cols) →
    (∀ c ∈ cs, hasHashSuffix c = false) →
    ∀ c ∈ cs, (colsRun u cs).select (c ++ "_sha256") =
      (u.select c).map fun rv => (rv.1, hashPayload rv.2) := by
  intro cs
  induction cs with
  | nil => intro u _ _ _ _ _ _ c hc; simp at hc
  | cons c0 cs ih =>
    intro u hwf hnd hnodup hmem hhmem hsuf c hc
    obtain ⟨i0, hi0⟩ := colIndex_isSome_of_mem (hmem c0 (by simp))
    obtain ⟨j0, hj0⟩ := colIndex_isSome_of_mem (hhmem c0 (by simp))
    have hu' := hashCol_rows u c0 hi0 hj0 hnd
    set u' := applyOps u (hashColOps u c0) with hudef
    have hcols' : u'.cols = u.cols := hashCol_cols u u c0
    have hwf' : RowsWF u' := hashCol_rowsWF u c0 hi0 hj0 hwf hnd
    have hnd' : RowIdsNodup u' := by
      unfold RowIdsNodup
      rw [hashCol_rowIds u c0 hi0 hj0 hnd]
      exact hnd
    have hnodup' := (List.nodup_cons.mp hnodup).2
    have hc0notmem := (List.nodup_cons.mp hnodup).1
    show (colsRun u' cs).select (c ++ "_sha256") = _
    rcases List.mem_cons.mp hc with hh | ht
    · subst hh
      rw [colsRun_select_ne cs u' (c ++ "_sha256") fun c' hc' he =>
        hc0notmem (hash_name_inj he ▸ hc')]
      rw [hudef, hashCol_select_self u c hi0 hj0 hwf hnd]
    · have hstep : u'.select c = u.select c := by
        rw [hudef]
        exact hashCol_select_ne u u c0
          (ne_hash_name_of_no_suffix (hsuf c hc) c0)
      rw [ih u' hwf' hnd' hnodup'
        (fun c' hc' => hcols' ▸ hmem c' (List.mem_cons_of_mem c0 hc'))
        (fun c' hc' => hcols' ▸ hhmem c' (List.mem_cons_of_mem c0 hc'))
        (fun c' hc' => hsuf c' (List.mem_cons_of_mem c0 hc')) c ht, hstep]

/-! ## Top-level helpers -/

theorem toHash_sub (ex : List String) (t : DbTable) : toHash ex t ⊆ t.cols :=
  fun _ hc => List.mem_of_mem_filter hc

theorem mainRun_table (ex : List String) (t : DbTable)
    (h : toHash ex t ≠ []) :
    (mainRun ex t).table = colsRun (schemaTable ex t) (toHash ex t) := by
  unfold mainRun
  rw [if_neg h]

theorem mainRun_trace (ex : List String) (t : DbTable)
    (h : toHash ex t ≠ []) :
    (mainRun ex t).trace = schemaOps ex t ++ hashOps ex t := by
  unfold mainRun
  rw [if_neg h]

theorem schemaTable_rowsWF (ex : List String) {t : DbTable} (h : RowsWF t) :
    RowsWF (schemaTable ex t) := by
  rw [schemaTable_eq]
  exact applyAlters_rowsWF _ _ t h

theorem schemaTable_rowIdsNodup (ex : List String) {t : DbTable}
    (h : RowIdsNodup t) : RowIdsNodup (schemaTable ex t) := by
  unfold RowIdsNodup
  rw [schemaTable_eq, applyAlters_rowIds]
  exact h

theorem schemaTable_mem_hash (ex : List String) (t : DbTable) :
    ∀ c ∈ toHash ex t, (c ++ "_sha256") ∈ (schemaTable ex t).cols := by
  rw [schemaTable_eq]
  exact applyAlters_mem t.cols (toHash ex t) t (fun _ h => h)

theorem schemaTable_mem (ex : List String) (t : DbTable) :
    ∀ c ∈ t.cols, c ∈ (schemaTable ex t).cols := by
  rw [schemaTable_eq]
  exact fun c hc => applyAlters_cols_sub t.cols (toHash ex t) t hc

theorem schemaTable_select (ex : List String) (t : DbTable) :
    ∀ c ∈ t.cols, (schemaTable ex t).select c = t.select c := by
  rw [schemaTable_eq]
  exact fun c hc => applyAlters_select t.cols (toHash ex t) t c hc

/-- The target-state invariant of the procedure: for every eligible column
(of a well-formed table whose eligible columns are not themselves named
like hash columns), the final hash column holds exactly the digests of the
source column's values, row by row. -/
theorem mainRun_select_hash (ex : List String) (t : DbTable) (hwf : t.WF)
    (hsuf : ∀ c ∈ toHash ex t, hasHashSuffix c = false)
    {c : String} (hc : c ∈ toHash ex t) :
    (mainRun ex t).table.select (c ++ "_sha256") =
      (t.select c).map fun rv => (rv.1, hashPayload rv.2) := by
  have hne : toHash ex t ≠ [] := fun he => by
    rw [he] at hc
    exact List.not_mem_nil c hc
  rw [mainRun_table ex t hne]
  have hstep := colsRun_select_hash (toHash ex t) (schemaTable ex t)
    (schemaTable_rowsWF ex hwf.2.1) (schemaTable_rowIdsNodup ex hwf.2.2)
    (List.Nodup.filter _ hwf.1)
    (fun c' hc' => schemaTable_mem ex t c' (toHash_sub ex t hc'))
    (schemaTable_mem_hash ex t) hsuf c hc
  rw [hstep, schemaTable_select ex t c (toHash_sub ex t hc)]

/-! ## Claim theorems -/

/-- C1: for every all-upper-case input string, `sha256_hex` hashes the raw,
untransformed string; in particular `sha256_hex "ABC"` is the SHA-256 hex
digest of `"ABC"`, not of `"Abc"` or `"abc"` — the attempted case
transformation inside the function has no effect on the result. -/
theorem C1_case_transform_has_no_effect :
    (∀ s : String, pyIsUpper s = true → sha256_hex s = sha256Hex s) ∧
    sha256_hex "ABC" = sha256Hex "ABC" ∧
    sha256_hex "ABC" ≠ sha256Hex "Abc" ∧
    sha256_hex "ABC" ≠ sha256Hex "abc" := by
  refine ⟨fun s _ => ?_, by decide, by decide, by decide⟩
  unfold sha256_hex
  split <;> rfl

theorem C1_witness :
    pyIsUpper "ABC" = true ∧ sha256_hex "ABC" = sha256Hex "ABC" :=
  ⟨by decide, C1_case_transform_has_no_effect.1 "ABC" (by decide)⟩

/-- C2: after the procedure completes on a (well-formed) table whose
eligible columns are not themselves named like hash columns, every eligible
column's hash column holds, for every row, the digest of that row's
normalized value; on the scenario table (`id, name`, exclude `id`, rows
`(1, "alice")`, `(2, "BOB")`) the column `name_sha256` exists and holds
`sha256("alice")` and `sha256("BOB")`. -/
theorem C2_hash_columns_hold_digests (ex : List String) (t : DbTable)
    (hwf : t.WF) (hsuf : ∀ c ∈ toHash ex t, hasHashSuffix c = false) :
    (∀ c ∈ toHash ex t,
      (mainRun ex t).table.select (c ++ "_sha256") =
        (t.select c).map fun rv =>
          (rv.1, some (SqlValue.text (sha256_hex (normalizeVal rv.2))))) ∧
    "name_sha256" ∈ (mainRun ["id"] scenarioTable).table.cols ∧
    (mainRun ["id"] scenarioTable).table.select "name_sha256" =
      [(1, some (.text (sha256Hex "alice"))),
       (2, some (.text (sha256Hex "BOB")))] := by
  exact ⟨fun c hc => mainRun_select_hash ex t hwf hsuf hc, by decide, by decide⟩

theorem C2_witness :
    scenarioTable.WF ∧
    (∀ c ∈ toHash ["id"] scenarioTable, hasHashSuffix c = false) ∧
    "name" ∈ toHash ["id"] scenarioTable ∧
    (mainRun ["id"] scenarioTable).table.select ("name" ++ "_sha256") =
      (scenarioTable.select "name").map fun rv =>
        (rv.1, some (SqlValue.text (sha256_hex (normalizeVal rv.2)))) :=
  ⟨by decide, by decide, by decide,
    (C2_hash_columns_hold_digests ["id"] scenarioTable (by decide)
      (by decide)).1 "name" (by decide)⟩

/-- C3 counterexample: running the procedure a second time on the scenario
table is not idempotent — the first run's hash column `name_sha256` is
itself eligible on the second run, so schema reconciliation adds the new
column `name_sha256_sha256`. -/
theorem C3_counterexample :
    (mainRun ["id"] (mainRun ["id"] scenarioTable).table).table.cols ≠
      (mainRun ["id"] scenarioTable).table.cols ∧
    "name_sha256_sha256" ∈
      (mainRun ["id"] (mainRun ["id"] scenarioTable).table).table.cols ∧
    "name_sha256_sha256" ∉ (mainRun ["id"] scenarioTable).table.cols := by
  refine ⟨?_, by decide, by decide⟩
  decide

/-- C3 amended: on the scenario table a second run with unchanged source
data raises no error and leaves the contents of the first run's hash column
`name_sha256` identical, but schema reconciliation is not idempotent: the
first run's hash column is itself eligible, so the second run adds the new
column `name_sha256_sha256` (holding digests of the digests). -/
theorem C3_second_run_amended :
    (mainRun ["id"] (mainRun ["id"] scenarioTable).table).configError = false ∧
    (mainRun ["id"] (mainRun ["id"] scenarioTable).table).table.select
        "name_sha256" =
      (mainRun ["id"] scenarioTable).table.select "name_sha256" ∧
    (mainRun ["id"] (mainRun ["id"] scenarioTable).table).table.cols =
      (mainRun ["id"] scenarioTable).table.cols ++ ["name_sha256_sha256"] := by
  refine ⟨by decide, ?_, by decide⟩
  decide

/-- C4: a row whose value in an eligible column is null hashes to the
SHA-256 digest of the empty string,
`e3b0c44298fc1c149afbf4c8996fb92427ae41e4649b934ca495991b7852b855`. -/
theorem C4_null_hashes_to_empty_string_digest (ex : List String)
    (t : DbTable) (hwf : t.WF)
    (hsuf : ∀ c ∈ toHash ex t, hasHashSuffix c = false)
    {c : String} (hc : c ∈ toHash ex t) {r : Nat}
    (hr : (r, none) ∈ t.select c) :
    sha256_hex "" =
      "e3b0c44298fc1c149afbf4c8996fb92427ae41e4649b934ca495991b7852b855" ∧
    (r, some (SqlValue.text
      "e3b0c44298fc1c149afbf4c8996fb92427ae41e4649b934ca495991b7852b855")) ∈
      (mainRun ex t).table.select (c ++ "_sha256") := by
  refine ⟨by decide, ?_⟩
  rw [mainRun_select_hash ex t hwf hsuf hc]
  refine List.mem_map.mpr ⟨(r, none), hr, ?_⟩
  show (r, hashPayload none) = _
  have h2 : hashPayload none = some (SqlValue.text
      "e3b0c44298fc1c149afbf4c8996fb92427ae41e4649b934ca495991b7852b855") := by
    decide
  rw [h2]

theorem C4_witness :
    nullRowTable.WF ∧
    (∀ c ∈ toHash ["id"] nullRowTable, hasHashSuffix c = false) ∧
    "name" ∈ toHash ["id"] nullRowTable ∧
    (1, none) ∈ nullRowTable.select "name" ∧
    (1, some (SqlValue.text
      "e3b0c44298fc1c149afbf4c8996fb92427ae41e4649b934ca495991b7852b855")) ∈
      (mainRun ["id"] nullRowTable).table.select ("name" ++ "_sha256") :=
  ⟨by decide, by decide, by decide, by decide,
    (C4_null_hashes_to_empty_string_digest ["id"] nullRowTable (by decide)
      (by decide) (by decide) (by decide)).2⟩

/-- Every statement of the row-hashing loop is a commit or an update into
the hash column of one of the processed columns. -/
theorem colsTrace_shape : ∀ (cs : List String) (u : DbTable) (op : DbOp),
    op ∈ colsTrace u cs →
    op = DbOp.commit ∨ ∃ r c v, c ∈ cs ∧ op = DbOp.update r (c ++ "_sha256") v := by
  intro cs
  induction cs with
  | nil => intro u op hop; simp [colsTrace] at hop
  | cons c cs ih =>
    intro u op hop
    rcases List.mem_append.mp hop with hch | hrest
    · rw [hashColOps_eq] at hch
      rcases List.mem_append.mp hch with hupd | hcom
      · obtain ⟨rv, _, hrv⟩ := List.mem_map.mp hupd
        exact Or.inr ⟨rv.1, c, hashPayload rv.2, by simp, hrv.symm⟩
      · left
        rw [List.mem_singleton] at hcom
        exact hcom
    · rcases ih _ op hrest with h | ⟨r, c', v, hc', hop'⟩
      · exact Or.inl h
      · exact Or.inr ⟨r, c', v, List.mem_cons_of_mem c hc', hop'⟩

/-- C6: when the exclusion set leaves no eligible columns, the procedure
reports a configuration error, performs no action on the table (no
statement is issued, the table is unchanged), and does not crash; a later
table in the same run is processed exactly as it would be alone. -/
theorem C6_no_eligible_columns (ex : List String) (t u : DbTable)
    (h : toHash ex t = []) :
    mainRun ex t = ⟨true, t, []⟩ ∧
    runTables ex [("A", t), ("B", u)] ["A", "B"] =
      [("A", t), ("B", (mainRun ex u).table)] := by
  have h1 : mainRun ex t = ⟨true, t, []⟩ := by
    unfold mainRun
    rw [if_pos h]
  refine ⟨h1, ?_⟩
  unfold runTables
  simp [h1]

theorem C6_witness :
    toHash ["id"] (⟨["id"], []⟩ : DbTable) = [] ∧
    mainRun ["id"] (⟨["id"], []⟩ : DbTable) = ⟨true, ⟨["id"], []⟩, []⟩ ∧
    runTables ["id"] [("A", ⟨["id"], []⟩), ("B", scenarioTable)] ["A", "B"] =
      [("A", ⟨["id"], []⟩), ("B", (mainRun ["id"] scenarioTable).table)] := by
  have h := C6_no_eligible_columns ["id"] ⟨["id"], []⟩ scenarioTable (by decide)
  exact ⟨by decide, h.1, h.2⟩

/-- C7: for every processed table, schema reconciliation runs to
completion — the trace is the schema alterations, then their commit, then
the row-hashing statements; the schema segment contains only alterations,
the hashing segment contains none, and every eligible column's hash column
exists in the schema as soon as the schema commit is applied, before any
row hashing begins. -/
theorem C7_schema_phase_precedes_hashing (ex : List String) (t : DbTable)
    (h : toHash ex t ≠ []) :
    (mainRun ex t).trace =
      schemaAlterOps t.cols (toHash ex t) ++ DbOp.commit :: hashOps ex t ∧
    (∀ op ∈ schemaAlterOps t.cols (toHash ex t), ∃ c, op = DbOp.alter c) ∧
    (∀ op ∈ hashOps ex t, ∀ c, op ≠ DbOp.alter c) ∧
    (∀ c ∈ toHash ex t, (c ++ "_sha256") ∈ (schemaTable ex t).cols) := by
  refine ⟨?_, schemaAlterOps_shape t.cols (toHash ex t), ?_, schemaTable_mem_hash ex t⟩
  · rw [mainRun_trace ex t h]
    unfold schemaOps
    rw [List.append_assoc]
    rfl
  · intro op hop c
    rcases colsTrace_shape (toHash ex t) (schemaTable ex t) op hop with h1 | ⟨r, c', v, _, h2⟩
    · rw [h1]
      exact fun he => DbOp.noConfusion he
    · rw [h2]
      exact fun he => DbOp.noConfusion he

theorem C7_witness :
    toHash ["id"] scenarioTable ≠ [] ∧
    (mainRun ["id"] scenarioTable).trace =
      schemaAlterOps scenarioTable.cols (toHash ["id"] scenarioTable) ++
        DbOp.commit :: hashOps ["id"] scenarioTable ∧
    (∀ c ∈ toHash ["id"] scenarioTable,
      (c ++ "_sha256") ∈ (schemaTable ["id"] scenarioTable).cols) := by
  have h := C7_schema_phase_precedes_hashing ["id"] scenarioTable (by decide)
  exact ⟨by decide, h.1, h.2.2.2⟩

theorem schemaOps_no_update (ex : List String) (t : DbTable) :
    ∀ op ∈ schemaOps ex t, ∀ r c v, op ≠ DbOp.update r c v := by
  intro op hop r c v
  unfold schemaOps at hop
  rcases List.mem_append.mp hop with ha | hc0
  · obtain ⟨c', hc'⟩ := schemaAlterOps_shape t.cols (toHash ex t) op ha
    rw [hc']
    exact fun he => DbOp.noConfusion he
  · rw [List.mem_singleton] at hc0
    rw [hc0]
    exact fun he => DbOp.noConfusion he

/-- C8: the procedure never writes a source-column value. Every `UPDATE`
it issues targets a column whose name ends in `_sha256`; the schema phase
alters no value data (every existing column's scan is unchanged by it);
and after the full run every column not named like a hash column scans
exactly as before. -/
theorem C8_writes_only_hash_columns (ex : List String) (t : DbTable) :
    (∀ op ∈ (mainRun ex t).trace, ∀ r c v, op = DbOp.update r c v →
      hasHashSuffix c = true) ∧
    (∀ c ∈ t.cols, (schemaTable ex t).select c = t.select c) ∧
    (∀ c ∈ t.cols, hasHashSuffix c = false →
      (mainRun ex t).table.select c = t.select c) := by
  refine ⟨?_, schemaTable_select ex t, ?_⟩
  · intro op hop r c v hupd
    by_cases h0 : toHash ex t = []
    · unfold mainRun at hop
      rw [if_pos h0] at hop
      simp at hop
    · rw [mainRun_trace ex t h0] at hop
      rcases List.mem_append.mp hop with hs | hh
      · exact absurd hupd (schemaOps_no_update ex t op hs r c v)
      · rcases colsTrace_shape (toHash ex t) (schemaTable ex t) op hh with
          h1 | ⟨r', c', v', _, h2⟩
        · rw [h1] at hupd
          exact DbOp.noConfusion hupd
        · rw [h2] at hupd
          have : c = c' ++ "_sha256" :=
            ((DbOp.update.injEq _ _ _ _ _ _ ▸ hupd).2.1).symm
          rw [this]
          exact hasHashSuffix_append c'
  · intro c hc hsuf
    by_cases h0 : toHash ex t = []
    · unfold mainRun
      rw [if_pos h0]
    · rw [mainRun_table ex t h0,
        colsRun_select_ne (toHash ex t) (schemaTable ex t) c
          (fun c' _ => ne_hash_name_of_no_suffix hsuf c'),
        schemaTable_select ex t c hc]

set_option maxRecDepth 8000 in
theorem C8_witness :
    DbOp.update 1 "name_sha256" (some (SqlValue.text
      "2bd806c97f0e00af1a1fc3328fa763a9269723c8db8fac4f93af71db186d6e90")) ∈
      (mainRun ["id"] scenarioTable).trace ∧
    hasHashSuffix "name_sha256" = true ∧
    "name" ∈ scenarioTable.cols ∧
    hasHashSuffix "name" = false ∧
    (mainRun ["id"] scenarioTable).table.select "name" =
      scenarioTable.select "name" :=
  ⟨by decide,
    (C8_writes_only_hash_columns ["id"] scenarioTable).1
      (DbOp.update 1 "name_sha256" (some (SqlValue.text
        "2bd806c97f0e00af1a1fc3328fa763a9269723c8db8fac4f93af71db186d6e90")))
      (by decide) 1 "name_sha256"
      (some (SqlValue.text
        "2bd806c97f0e00af1a1fc3328fa763a9269723c8db8fac4f93af71db186d6e90"))
      rfl,
    by decide, by decide,
    (C8_writes_only_hash_columns ["id"] scenarioTable).2.2 "name" (by decide)
      (by decide)⟩

theorem select_of_rows_nil {t : DbTable} (h : t.rows = []) (c : String) :
    t.select c = [] := by
  unfold DbTable.select
  cases colIndex t.cols c with
  | none => rfl
  | some i => rw [h]; rfl

theorem hashColOps_of_rows_nil {u : DbTable} (h : u.rows = []) (c : String) :
    hashColOps u c = [DbOp.commit] := by
  rw [hashColOps_eq, select_of_rows_nil h]
  rfl

theorem colsRun_of_rows_nil : ∀ (cs : List String) (u : DbTable),
    u.rows = [] → colsRun u cs = u := by
  intro cs
  induction cs with
  | nil => intro u _; rfl
  | cons c cs ih =>
    intro u h
    show colsRun (applyOps u (hashColOps u c)) cs = u
    rw [hashColOps_of_rows_nil h]
    exact ih u h

theorem colsTrace_of_rows_nil : ∀ (cs : List String) (u : DbTable),
    u.rows = [] → colsTrace u cs = List.replicate cs.length DbOp.commit := by
  intro cs
  induction cs with
  | nil => intro u _; rfl
  | cons c cs ih =>
    intro u h
    show hashColOps u c ++ colsTrace (applyOps u (hashColOps u c)) cs = _
    rw [hashColOps_of_rows_nil h]
    show DbOp.commit :: colsTrace u cs = _
    rw [ih u h, List.length_cons, List.replicate_succ]

theorem countCommits_append (l l' : List DbOp) :
    countCommits (l ++ l') = countCommits l + countCommits l' := by
  unfold countCommits
  rw [List.filter_append, List.length_append]

theorem countCommits_schemaOps (ex : List String) (t : DbTable) :
    countCommits (schemaOps ex t) = 1 := by
  unfold schemaOps
  rw [countCommits_append]
  have h1 : countCommits (schemaAlterOps t.cols (toHash ex t)) = 0 := by
    unfold countCommits
    rw [List.length_eq_zero, List.filter_eq_nil_iff]
    intro op hop
    obtain ⟨c, hc⟩ := schemaAlterOps_shape t.cols (toHash ex t) op hop
    rw [hc]
    simp [isCommit]
  rw [h1]
  rfl

theorem countCommits_replicate_commit (n : Nat) :
    countCommits (List.replicate n DbOp.commit) = n := by
  unfold countCommits
  rw [List.filter_replicate]
  simp [isCommit]

/-- C10: on a table with eligible columns but zero rows the procedure
still adds every missing hash column, performs no row update, issues the
schema commit plus one (empty-batch) commit per eligible column, and
completes without a configuration error, leaving the row set empty. -/
theorem C10_zero_rows (ex : List String) (t : DbTable)
    (h : toHash ex t ≠ []) (hr : t.rows = []) :
    (mainRun ex t).configError = false ∧
    (∀ c ∈ toHash ex t, (c ++ "_sha256") ∈ (mainRun ex t).table.cols) ∧
    (mainRun ex t).table.rows = [] ∧
    (∀ op ∈ (mainRun ex t).trace, ∀ r c v, op ≠ DbOp.update r c v) ∧
    countCommits (mainRun ex t).trace = 1 + (toHash ex t).length := by
  have hsr : (schemaTable ex t).rows = [] := by
    rw [schemaTable_eq]
    exact applyAlters_rows_nil t.cols (toHash ex t) t hr
  have htab : (mainRun ex t).table = schemaTable ex t := by
    rw [mainRun_table ex t h, colsRun_of_rows_nil _ _ hsr]
  have htr : hashOps ex t = List.replicate (toHash ex t).length DbOp.commit :=
    colsTrace_of_rows_nil _ _ hsr
  refine ⟨?_, ?_, ?_, ?_, ?_⟩
  · unfold mainRun
    rw [if_neg h]
  · intro c hc
    rw [htab]
    exact schemaTable_mem_hash ex t c hc
  · rw [htab]
    exact hsr
  · intro op hop r c v
    rw [mainRun_trace ex t h] at hop
    rcases List.mem_append.mp hop with hs | hh
    · exact schemaOps_no_update ex t op hs r c v
    · rw [htr] at hh
      rw [List.eq_of_mem_replicate hh]
      exact fun he => DbOp.noConfusion he
  · rw [mainRun_trace ex t h, countCommits_append, countCommits_schemaOps,
      htr, countCommits_replicate_commit]

theorem C10_witness :
    toHash ["id"] emptyRowsTable ≠ [] ∧
    emptyRowsTable.rows = [] ∧
    (mainRun ["id"] emptyRowsTable).configError = false ∧
    (∀ c ∈ toHash ["id"] emptyRowsTable,
      (c ++ "_sha256") ∈ (mainRun ["id"] emptyRowsTable).table.cols) ∧
    (mainRun ["id"] emptyRowsTable).table.rows = [] ∧
    countCommits (mainRun ["id"] emptyRowsTable).trace =
      1 + (toHash ["id"] emptyRowsTable).length := by
  have h := C10_zero_rows ["id"] emptyRowsTable (by decide) rfl
  exact ⟨by decide, rfl, h.1, h.2.1, h.2.2.1, h.2.2.2.2⟩

theorem runCommitted_append (xs ys : List DbOp) :
    ∀ (comm sess : DbTable),
      runCommitted comm sess (xs ++ ys) =
        runCommitted (runCommitted comm sess xs) (applyOps sess xs) ys := by
  induction xs with
  | nil => intro comm sess; rfl
  | cons op xs ih =>
    intro comm sess
    show runCommitted _ (applyOp sess op) (xs ++ ys) = _
    rw [ih]
    rfl

theorem runCommitted_no_commit : ∀ (ops : List DbOp),
    (∀ op ∈ ops, isCommit op = false) →
    ∀ (comm sess : DbTable), runCommitted comm sess ops = comm := by
  intro ops
  induction ops with
  | nil => intro _ comm sess; rfl
  | cons op ops ih =>
    intro h comm sess
    show runCommitted (if isCommit op then _ else comm) _ ops = comm
    rw [h op (by simp), if_neg (by simp)]
    exact ih (fun op' hop' => h op' (List.mem_cons_of_mem op hop')) comm _

theorem runCommitted_commit_last (L : List DbOp) (comm sess : DbTable) :
    runCommitted comm sess (L ++ [DbOp.commit]) = applyOps sess L := by
  rw [runCommitted_append]
  show runCommitted _ (applyOps sess L) [] = _
  rfl

theorem hashColOps_no_commit_updates (u : DbTable) (c : String) :
    ∀ op ∈ (u.select c).map fun rv =>
      DbOp.update rv.1 (c ++ "_sha256") (hashPayload rv.2),
      isCommit op = false := by
  intro op hop
  obtain ⟨rv, _, hrv⟩ := List.mem_map.mp hop
  rw [← hrv]
  rfl

theorem countCommits_updates (u : DbTable) (c : String) :
    countCommits ((u.select c).map fun rv =>
      DbOp.update rv.1 (c ++ "_sha256") (hashPayload rv.2)) = 0 := by
  unfold countCommits
  rw [List.length_eq_zero, List.filter_eq_nil_iff]
  intro op hop
  rw [hashColOps_no_commit_updates u c op hop]
  exact fun he => Bool.noConfusion he

theorem countCommits_hashColOps (u : DbTable) (c : String) :
    countCommits (hashColOps u c) = 1 := by
  rw [hashColOps_eq, countCommits_append, countCommits_updates]
  rfl

theorem countCommits_colsTrace : ∀ (cs : List String) (u : DbTable),
    countCommits (colsTrace u cs) = cs.length := by
  intro cs
  induction cs with
  | nil => intro u; rfl
  | cons c cs ih =>
    intro u
    show countCommits (hashColOps u c ++ _) = _
    rw [countCommits_append, countCommits_hashColOps, ih, List.length_cons,
      Nat.add_comm]

/-- Abort-at-any-point semantics of the hashing loop: if the run stops
after the first `n` statements, the durable state is exactly the state of
the fully committed columns — the current column's uncommitted batch is
discarded, previously committed columns are intact. -/
theorem runCommitted_take_colsTrace : ∀ (cs : List String) (u : DbTable)
    (n : Nat),
    runCommitted u u ((colsTrace u cs).take n) =
      colsRun u (cs.take (countCommits ((colsTrace u cs).take n))) := by
  intro cs
  induction cs with
  | nil => intro u n; simp [colsTrace, colsRun, countCommits, runCommitted]
  | cons c cs ih =>
    intro u n
    have hchunk : hashColOps u c =
        ((u.select c).map fun rv =>
          DbOp.update rv.1 (c ++ "_sha256") (hashPayload rv.2)) ++
          [DbOp.commit] := hashColOps_eq u c
    set upds := (u.select c).map fun rv =>
      DbOp.update rv.1 (c ++ "_sha256") (hashPayload rv.2) with hupds
    have htr : colsTrace u (c :: cs) =
        hashColOps u c ++ colsTrace (applyOps u (hashColOps u c)) cs := rfl
    set rest := colsTrace (applyOps u (hashColOps u c)) cs with hrest
    by_cases hn : n ≤ upds.length
    · have hlen : n - (hashColOps u c).length = 0 := by
        rw [hchunk, List.length_append]
        simp only [List.length_singleton]
        omega
      have htake : (colsTrace u (c :: cs)).take n = upds.take n := by
        rw [htr, List.take_append_eq_append_take, hlen, List.take_zero,
          List.append_nil, hchunk, List.take_append_eq_append_take,
          Nat.sub_eq_zero_of_le hn, List.take_zero, List.append_nil]
      have hnoc : ∀ op ∈ upds.take n, isCommit op = false := fun op hop =>
        hashColOps_no_commit_updates u c op (List.take_subset n upds hop)
      have hcc : countCommits (upds.take n) = 0 := by
        unfold countCommits
        rw [List.length_eq_zero, List.filter_eq_nil_iff]
        intro op hop
        rw [hnoc op hop]
        exact fun he => Bool.noConfusion he
      rw [htake, runCommitted_no_commit _ hnoc, hcc, List.take_zero]
      rfl
    · have hge : (hashColOps u c).length ≤ n := by
        rw [hchunk, List.length_append]
        simp only [List.length_singleton]
        omega
      have htake : (colsTrace u (c :: cs)).take n =
          hashColOps u c ++ rest.take (n - (hashColOps u c).length) := by
        rw [htr, List.take_append_eq_append_take,
          List.take_of_length_le hge]
      rw [htake, runCommitted_append]
      have hcomm : runCommitted u u (hashColOps u c) =
          applyOps u (hashColOps u c) := by
        rw [hchunk, runCommitted_commit_last]
        rw [applyOps_append]
        rfl
      rw [hcomm]
      rw [ih (applyOps u (hashColOps u c)) (n - (hashColOps u c).length)]
      rw [countCommits_append, countCommits_hashColOps, Nat.add_comm,
        List.take_succ_cons]
      rfl

/-- C5: row hashing commits exactly once per eligible column — each
column's statement batch is its row updates followed by a single commit —
and if the run aborts after any number `n` of hashing statements, the
durable state is exactly the run over the fully committed prefix of
eligible columns: the in-flight column's uncommitted batch is discarded
and every previously committed column's hash values remain intact. -/
theorem C5_batch_per_column_commit (ex : List String) (t : DbTable)
    (n : Nat) :
    countCommits (hashOps ex t) = (toHash ex t).length ∧
    (∀ (u : DbTable) (c : String), ∃ upds,
      hashColOps u c = upds ++ [DbOp.commit] ∧
      ∀ op ∈ upds, ∃ r v, op = DbOp.update r (c ++ "_sha256") v) ∧
    runCommitted (schemaTable ex t) (schemaTable ex t)
        ((hashOps ex t).take n) =
      colsRun (schemaTable ex t)
        ((toHash ex t).take (countCommits ((hashOps ex t).take n))) := by
  refine ⟨countCommits_colsTrace (toHash ex t) (schemaTable ex t), ?_,
    runCommitted_take_colsTrace (toHash ex t) (schemaTable ex t) n⟩
  intro u c
  refine ⟨(u.select c).map fun rv =>
    DbOp.update rv.1 (c ++ "_sha256") (hashPayload rv.2), hashColOps_eq u c, ?_⟩
  intro op hop
  obtain ⟨rv, _, hrv⟩ := List.mem_map.mp hop
  exact ⟨rv.1, hashPayload rv.2, hrv.symm⟩

set_option maxRecDepth 8000 in
theorem C5_witness :
    runCommitted (schemaTable ["id"] scenarioTable)
        (schemaTable ["id"] scenarioTable)
        ((hashOps ["id"] scenarioTable).take 1) =
      colsRun (schemaTable ["id"] scenarioTable)
        ((toHash ["id"] scenarioTable).take
          (countCommits ((hashOps ["id"] scenarioTable).take 1))) ∧
    countCommits ((hashOps ["id"] scenarioTable).take 1) = 0 ∧
    countCommits (hashOps ["id"] scenarioTable) =
      (toHash ["id"] scenarioTable).length :=
  ⟨(C5_batch_per_column_commit ["id"] scenarioTable 1).2.2, by decide,
    (C5_batch_per_column_commit ["id"] scenarioTable 1).1⟩
